import Mathlib

/-!
Verification of the geometry-processing core of the prism-maker repository
(src/src/geometry.py, class GeometryProcessor).

The Python code is shallowly embedded over the exact rationals: every
floating-point coordinate becomes a rational number, and every arithmetic
operation of the source is translated literally.  Calls into third-party
libraries (shapely polygon validity / area / containment, numpy angle
comparison, the Python built-in round) are not part of this repository;
they are modelled by computable definitions whose doc comments state what
library behaviour they stand for.
-/

namespace GeometryProcessor

/-- A 2D point, the model of a Python complex number (real part, imaginary part). -/
abbrev Point : Type := ℚ × ℚ

/-- A line segment: ordered pair (start, end) of points. -/
abbrev Seg : Type := Point × Point

/-- Graph nodes are rounded points. -/
abbrev Node : Type := Point

/-- An undirected edge stored as a canonically ordered pair of nodes. -/
abbrev Edge : Type := Node × Node

/-- Squared euclidean distance; comparing squared distances is order-equivalent
to comparing the Python `abs` of complex differences. -/
def distSq (p q : Point) : ℚ := (p.1 - q.1) ^ 2 + (p.2 - q.2) ^ 2

/-- Embedding of the Python built-in abs on a real value. -/
def ratAbs (q : ℚ) : ℚ := if q < 0 then -q else q


/-- The denominator of the parametric two-line intersection system, exactly as
computed on line 88 of geometry.py:
denom = (x1 - x2) * (y3 - y4) - (y1 - y2) * (x3 - x4). -/
def interDenom (s1 s2 : Seg) : ℚ :=
  (s1.1.1 - s1.2.1) * (s2.1.2 - s2.2.2) - (s1.1.2 - s1.2.2) * (s2.1.1 - s2.2.1)

/-- Point at parameter value t along a segment: (x1 + t*(x2-x1), y1 + t*(y2-y1)). -/
def segParam (s : Seg) (t : ℚ) : Point :=
  (s.1.1 + t * (s.2.1 - s.1.1), s.1.2 + t * (s.2.2 - s.1.2))

/-- Embedding of GeometryProcessor._line_intersection (geometry.py lines 66-103).
Returns the crossing point of the two segments, or none when the denominator is
below the tolerance or a parameter leaves the unit interval. -/
def lineIntersection (eps : ℚ) (s1 s2 : Seg) : Option Point :=
  let x1 := s1.1.1; let y1 := s1.1.2; let x2 := s1.2.1; let y2 := s1.2.2
  let x3 := s2.1.1; let y3 := s2.1.2; let x4 := s2.2.1; let y4 := s2.2.2
  let denom := interDenom s1 s2
  if ratAbs denom < eps then none
  else
    let t := ((x1 - x3) * (y3 - y4) - (y1 - y3) * (x3 - x4)) / denom
    let u := -((x1 - x2) * (y1 - y3) - (y1 - y2) * (x1 - x3)) / denom
    if 0 ≤ t ∧ t ≤ 1 ∧ 0 ≤ u ∧ u ≤ 1 then
      some (x1 + t * (x2 - x1), y1 + t * (y2 - y1))
    else none

/-- Embedding of GeometryProcessor._find_intersections (lines 58-64): the
intersection points of every ordered pair i < j, in discovery order. -/
def pairInters (eps : ℚ) : List Seg → List Point
  | [] => []
  | s :: rest => (rest.filterMap fun s2 => lineIntersection eps s s2) ++ pairInters eps rest

/-- The deduplicated intersection set (the Python code stores the points in a
set of complex numbers, deduplicating under exact equality). -/
def findIntersections (eps : ℚ) (segs : List Seg) : List Point :=
  (pairInters eps segs).dedup


/-- Embedding of GeometryProcessor._point_on_segment (lines 136-152): collinearity
within tolerance via the cross product, then a bounding box check with tolerance
slack. -/
def pointOnSegment (eps : ℚ) (p : Point) (seg : Seg) : Bool :=
  let s := seg.1; let e := seg.2
  let cross := (p.2 - s.2) * (e.1 - s.1) - (p.1 - s.1) * (e.2 - s.2)
  if eps < ratAbs cross then false
  else
    decide (min s.1 e.1 - eps ≤ p.1) && decide (p.1 ≤ max s.1 e.1 + eps) &&
    decide (min s.2 e.2 - eps ≤ p.2) && decide (p.2 ≤ max s.2 e.2 + eps)

/-- Embedding of GeometryProcessor._sort_points_along_segment (lines 154-160):
deduplicate, then stable-sort by distance from the segment start.  The source
sorts by the float distance abs(point - start); sorting by the squared distance
is order-equivalent because squaring is strictly monotone on nonnegative
reals, and ties coincide. -/
def sortPointsAlongSegment (pts : List Point) (start : Point) : List Point :=
  pts.dedup.insertionSort fun p q => distSq p start ≤ distSq q start

/-- Embedding of the per-segment body of
GeometryProcessor._split_segments_at_intersections (lines 105-134). -/
def splitOne (eps : ℚ) (inters : List Point) (seg : Seg) : List Seg :=
  let pts := (inters.filter fun p => pointOnSegment eps p seg) ++ [seg.1, seg.2]
  let sorted := sortPointsAlongSegment pts seg.1
  (sorted.zip sorted.tail).filter fun pq => decide (eps ^ 2 < distSq pq.1 pq.2)

/-- Embedding of GeometryProcessor._split_segments_at_intersections: every
segment is cut at the intersection points lying on it; sub-segments of length
at most the tolerance are dropped (the source compares the float length with
the tolerance; comparing squared length with the squared tolerance is
equivalent for a nonnegative tolerance). -/
def splitSegments (eps : ℚ) (segs : List Seg) (inters : List Point) : List Seg :=
  (segs.map (splitOne eps inters)).flatten

/-- Model of the Python built-in round on an exact rational: round half to even. -/
def pyRoundInt (q : ℚ) : ℤ :=
  if q - ⌊q⌋ = 1/2 then (if 2 ∣ ⌊q⌋ then ⌊q⌋ else ⌊q⌋ + 1) else round q

/-- Model of the Python round(x, prec): round to prec decimal digits
(half to even). -/
def pyRound (prec : ℤ) (q : ℚ) : ℚ :=
  (pyRoundInt (q * (10 : ℚ) ^ prec) : ℚ) / (10 : ℚ) ^ prec

/-- Embedding of GeometryProcessor._round_point (lines 181-184).  The source
derives the digit count as int(-log10(tolerance)); since log10 is
transcendental the integer digit count prec is taken as a parameter here (it
equals 1 for the default tolerance 1/10). -/
def roundPoint (prec : ℤ) (p : Point) : Point :=
  (pyRound prec p.1, pyRound prec p.2)

/-- The adjacency structure built by the graph builder: a Python dict from
node to neighbor list, modelled as an association list in insertion order. -/
abbrev Graph : Type := List (Node × List Node)

/-- Neighbor-list lookup, the model of graph[node] (empty for a missing key). -/
def neighborsOf (g : Graph) (n : Node) : List Node :=
  ((g.find? fun e => decide (e.1 = n)).map Prod.snd).getD []

/-- Insert a fresh empty adjacency entry if the key is not present yet. -/
def addNode (g : Graph) (k : Node) : Graph :=
  if g.any fun e => decide (e.1 = k) then g else g ++ [(k, [])]

/-- Append a neighbor to the adjacency list of an existing key. -/
def addNeighbor (g : Graph) (k v : Node) : Graph :=
  g.map fun e => if e.1 = k then (e.1, e.2 ++ [v]) else e

/-- Embedding of GeometryProcessor._build_segment_graph (lines 162-179): round
both endpoints of every split segment and record the edge in both directions. -/
def buildSegmentGraph (prec : ℤ) (segs : List Seg) : Graph :=
  segs.foldl (fun g se =>
    let ks := roundPoint prec se.1
    let ke := roundPoint prec se.2
    addNeighbor (addNeighbor (addNode (addNode g ks) ke) ks ke) ke ks) []

/-- Lexicographic comparison on (real, imag), the sort key used for the
undirected edge identity (lambda x: (x.real, x.imag)). -/
def nodeLe (a b : Node) : Bool :=
  decide (a.1 < b.1) || (decide (a.1 = b.1) && decide (a.2 ≤ b.2))

/-- The undirected edge identity tuple(sorted([a, b], key)) used throughout
the extractor (lines 193, 214, 220, 224, 226). -/
def edgeOf (a b : Node) : Edge :=
  if nodeLe a b then (a, b) else (b, a)

/-- The cross product of two displacement vectors. -/
def cross2 (v w : Point) : ℚ := v.1 * w.2 - v.2 * w.1

/-- The dot product of two displacement vectors. -/
def dot2 (v w : Point) : ℚ := v.1 * w.1 + v.2 * w.2

/-- Model of the numpy angle comparison in _choose_rightmost_neighbor: the
quadrant class of the counterclockwise angle from v to w, taken in [0, 2*pi):
0 for angle zero, 1 for (0, pi), 2 for exactly pi, 3 for (pi, 2*pi).  The
source computes (np.angle(w) - np.angle(v)) mod 2*pi in floating point; this
is the exact-arithmetic version of the same total order. -/
def angClass (v w : Point) : ℕ :=
  if cross2 v w = 0 ∧ 0 ≤ dot2 v w then 0
  else if 0 < cross2 v w then 1
  else if cross2 v w = 0 then 2
  else 3

/-- Strict comparison of the counterclockwise angles from v to w1 and to w2,
the exact model of angle_diff(w1) < angle_diff(w2) on lines 259-261. -/
def angLt (v w1 w2 : Point) : Bool :=
  if angClass v w1 = angClass v w2 then
    if angClass v w1 = 1 ∨ angClass v w1 = 3 then decide (0 < cross2 w1 w2) else false
  else decide (angClass v w1 < angClass v w2)

/-- Difference of two points as a displacement vector. -/
def vsub (a b : Point) : Point := (a.1 - b.1, a.2 - b.2)

/-- Embedding of GeometryProcessor._choose_rightmost_neighbor (lines 245-265):
starting from neighbors[0], replace the best candidate whenever a strictly
smaller clockwise turn angle is found, so the first minimum wins. -/
def chooseRightmost (current previous : Node) (nbrs : List Node) : Node :=
  nbrs.foldl
    (fun best n =>
      if angLt (vsub current previous) (vsub n current) (vsub best current) then n else best)
    nbrs.headI

/-- The set of undirected edges of the consecutive pairs of a path, as marked
visited on lines 223-225. -/
def consecEdges : List Node → Finset Edge
  | [] => ∅
  | [_] => ∅
  | a :: b :: rest => insert (edgeOf a b) (consecEdges (b :: rest))

/-- The undirected edges of a closed cycle: the consecutive edges of the path
plus the closing edge from its last node back to its first. -/
def cycleEdges (p : List Node) : Finset Edge :=
  match p.head?, p.getLast? with
  | some a, some l => insert (edgeOf l a) (consecEdges p)
  | _, _ => consecEdges p

/-- Embedding of the while-True loop of GeometryProcessor._find_cycle_from_edge
(lines 210-243).  The loop terminates because every iteration adds a node not
yet in the walk's visited-node set; the fuel argument makes the function total
and any fuel larger than the number of graph nodes is never exhausted.  On
success the walk returns its path and marks all path edges plus the closing
edge as visited; on failure the visited set is returned unchanged. -/
def walkLoop (g : Graph) (s : Node) (V : Finset Edge) :
    ℕ → List Node → Finset Node → Node → Option (List Node) × Finset Edge
  | 0, _, _, _ => (none, V)
  | fuel + 1, path, vn, cur =>
    let nbrs := (neighborsOf g cur).filter fun n =>
      decide (edgeOf cur n ∉ V) && decide (n ∉ vn)
    if s ∈ neighborsOf g cur ∧ edgeOf cur s ∉ V ∧ 3 ≤ path.length then
      (some path, consecEdges path ∪ insert (edgeOf cur s) V)
    else if nbrs.isEmpty then (none, V)
    else
      let nxt := if nbrs.length = 1 then nbrs.headI
                 else chooseRightmost cur (path.getD (path.length - 2) cur) nbrs
      walkLoop g s V fuel (path ++ [nxt]) (insert nxt vn) nxt

/-- Fuel that bounds the number of distinct nodes of any graph, so the loop
model never runs out. -/
def walkFuel (g : Graph) : ℕ := g.length + (g.map fun e => e.2.length).sum + 1

/-- Embedding of GeometryProcessor._find_cycle_from_edge (lines 204-243): a DFS
walk starting with path [s, cur] and both nodes marked walk-visited. -/
def findCycleFromEdge (g : Graph) (s cur : Node) (V : Finset Edge) :
    Option (List Node) × Finset Edge :=
  walkLoop g s V (walkFuel g) [s, cur] {s, cur} cur

/-- One iteration of the extraction scan (lines 192-200): skip edges already
globally visited, otherwise walk from the edge and keep any found cycle with
at least 3 nodes. -/
def tryEdge (g : Graph) (u v : Node) (acc : List (List Node) × Finset Edge) :
    List (List Node) × Finset Edge :=
  if edgeOf u v ∈ acc.2 then acc
  else
    match findCycleFromEdge g u v acc.2 with
    | (some c, vis) => if 3 ≤ c.length then (acc.1 ++ [c], vis) else (acc.1, vis)
    | (none, vis) => (acc.1, vis)

/-- The inner for-loop over the neighbors of one start node. -/
def visitNbrs (g : Graph) (u : Node) : List Node → List (List Node) × Finset Edge →
    List (List Node) × Finset Edge
  | [], acc => acc
  | v :: vs, acc => visitNbrs g u vs (tryEdge g u v acc)

/-- The outer for-loop over the adjacency entries of the graph. -/
def visitEntries (g : Graph) : List (Node × List Node) → List (List Node) × Finset Edge →
    List (List Node) × Finset Edge
  | [], acc => acc
  | e :: es, acc => visitEntries g es (visitNbrs g e.1 e.2 acc)

/-- Embedding of GeometryProcessor._find_cycles_in_graph (lines 186-202). -/
def findCyclesInGraph (g : Graph) : List (List Node) :=
  (visitEntries g g ([], ∅)).1

/-- A candidate polygon: the vertex list of an extracted cycle (the coords list
handed to the shapely Polygon constructor). -/
abbrev Poly : Type := List Point

/-- Twice the signed area of the triangle a b c (the standard orientation
test). -/
def orient (a b c : Point) : ℚ :=
  (b.1 - a.1) * (c.2 - a.2) - (b.2 - a.2) * (c.1 - a.1)

/-- Whether p lies on the closed segment from a to b (exact test). -/
def onSegPt (a b p : Point) : Bool :=
  decide (orient a b p = 0) && decide (min a.1 b.1 ≤ p.1) && decide (p.1 ≤ max a.1 b.1) &&
    decide (min a.2 b.2 ≤ p.2) && decide (p.2 ≤ max a.2 b.2)

/-- Whether the closed segments a-b and c-d share at least one point (standard
exact orientation-based test). -/
def segsMeet (a b c d : Point) : Bool :=
  (decide (orient a b c * orient a b d < 0) && decide (orient c d a * orient c d b < 0)) ||
    onSegPt a b c || onSegPt a b d || onSegPt c d a || onSegPt c d b

/-- Whether the open segments a-b and c-d cross properly (each separates the
other's endpoints strictly). -/
def properCross (a b c d : Point) : Bool :=
  decide (orient a b c * orient a b d < 0) && decide (orient c d a * orient c d b < 0)

/-- Boundary edge i of the closed ring through the given vertices. -/
def ringEdge (ps : Poly) (i : ℕ) : Point × Point :=
  (ps.getD i (0, 0), ps.getD ((i + 1) % ps.length) (0, 0))

/-- Model of the shapely checks polygon.is_valid and (not polygon.is_empty) for
the ring built from a coords list (the shapely library is not part of this
repository).  The ring must have at least 3 vertices, no repeated vertex, no
three consecutive collinear vertices, and no contact between non-adjacent
boundary edges; this is the simple-closed-boundary reading the spec gives for
polygon validity. -/
def isSimpleRing (ps : Poly) : Bool :=
  decide (3 ≤ ps.length) && decide ps.Nodup &&
  ((List.range ps.length).all fun i =>
    decide (orient (ps.getD i (0, 0)) (ps.getD ((i + 1) % ps.length) (0, 0))
      (ps.getD ((i + 2) % ps.length) (0, 0)) ≠ 0)) &&
  ((List.range ps.length).all fun i => (List.range ps.length).all fun j =>
    if i < j ∧ j ≠ i + 1 ∧ ¬(i = 0 ∧ j = ps.length - 1) then
      !(segsMeet (ringEdge ps i).1 (ringEdge ps i).2 (ringEdge ps j).1 (ringEdge ps j).2)
    else true)

/-- Twice the signed shoelace sum of the closed ring through the vertices. -/
def shoelace2 (ps : Poly) : ℚ :=
  ((ps.zip (ps.rotate 1)).map fun pq => pq.1.1 * pq.2.2 - pq.2.1 * pq.1.2).sum

/-- Model of the shapely polygon.area: the absolute shoelace area of the ring
(this is exactly the value shapely computes for a simple ring; the library is
not part of this repository). -/
def polyArea (ps : Poly) : ℚ := ratAbs (shoelace2 ps) / 2

/-- Even-odd (crossing-number) point-in-polygon test, the exact model of the
containment geometry used below. -/
def pointInPoly (ps : Poly) (p : Point) : Bool :=
  (List.range ps.length).foldl
    (fun inside i =>
      let a := ps.getD i (0, 0)
      let b := ps.getD ((i + 1) % ps.length) (0, 0)
      if (decide (p.2 < a.2) ≠ decide (p.2 < b.2)) ∧
          p.1 < a.1 + (p.2 - a.2) * (b.1 - a.1) / (b.2 - a.2) then !inside else inside)
    false

/-- Model of the shapely containment test poly2.contains(poly1) used by the
de-nester (the shapely library is not part of this repository): every vertex
of the inner ring lies inside the outer ring and no boundary edge of the inner
ring properly crosses a boundary edge of the outer ring. -/
def polyContains (outer inner : Poly) : Bool :=
  (inner.all fun v => pointInPoly outer v) &&
  ((List.range inner.length).all fun i => (List.range outer.length).all fun j =>
    !(properCross (ringEdge inner i).1 (ringEdge inner i).2
        (ringEdge outer j).1 (ringEdge outer j).2))

/-- Embedding of GeometryProcessor._remove_nested_polygons (lines 294-309): a
polygon at index i is kept exactly when no polygon at another index contains
it. -/
def removeNestedPolygons (polys : List Poly) : List Poly :=
  ((List.range polys.length).filter fun i =>
    !((List.range polys.length).any fun j =>
      decide (i ≠ j) && polyContains (polys.getD j []) (polys.getD i []))).map
    fun i => polys.getD i []

/-- Embedding of GeometryProcessor._validate_polygons (lines 267-292): keep the
cycles whose ring is a valid nonempty polygon with area above the tolerance
and at most 6 vertices, then remove nested polygons. -/
def validatePolygons (eps : ℚ) (cycles : List (List Point)) : List Poly :=
  removeNestedPolygons (cycles.filter fun c =>
    isSimpleRing c && decide (eps < polyArea c) && decide (c.length ≤ 6))

/-- The mutable state of a GeometryProcessor instance: the configured tolerance
(with its derived rounding digit count, see roundPoint) and the two fields
self.intersections and self.segments that find_polygons overwrites. -/
structure ProcState where
  tolerance : ℚ
  precision : ℤ
  intersections : List Point
  segments : List Seg

/-- Embedding of GeometryProcessor.find_polygons (lines 28-56) including its
state updates: the segment list and intersection set of the instance are reset
from the argument before the pipeline runs, and the polygon list is returned. -/
def findPolygonsProc (st : ProcState) (lineSegments : List Seg) : ProcState × List Poly :=
  let st1 : ProcState := { st with segments := lineSegments, intersections := [] }
  let st2 : ProcState := { st1 with intersections := findIntersections st1.tolerance st1.segments }
  let split := splitSegments st2.tolerance st2.segments st2.intersections
  let graph := buildSegmentGraph st2.precision split
  let cycles := findCyclesInGraph graph
  (st2, validatePolygons st2.tolerance cycles)

/-- The polygon output of find_polygons on a fresh processor with the given
tolerance and derived rounding digit count. -/
def findPolygons (eps : ℚ) (prec : ℤ) (segs : List Seg) : List Poly :=
  (findPolygonsProc ⟨eps, prec, [], []⟩ segs).2

/-- The four sides of the 50 by 50 axis-aligned square, the input of the
square scenario. -/
def squareSegs : List Seg :=
  [((0, 0), (50, 0)), ((50, 0), (50, 50)), ((50, 50), (0, 50)), ((0, 50), (0, 0))]

/-- The vertex cycle of the square scenario's expected polygon. -/
def squareCycle : Poly := [(0, 0), (50, 0), (50, 50), (0, 50)]

/-- The outer square of the nesting scenario. -/
def outerSquare : Poly := [(0, 0), (10, 0), (10, 10), (0, 10)]

/-- The inner square of the nesting scenario, strictly inside outerSquare with
no shared boundary. -/
def innerSquare : Poly := [(2, 2), (4, 2), (4, 4), (2, 4)]

/-- A three-node path graph (no cycle), on which every walk dead-ends. -/
def pathGraph : Graph :=
  [((0, 0), [(1, 0)]), ((1, 0), [(0, 0), (2, 0)]), ((2, 0), [(1, 0)])]

/-- Invariant of the extraction scan: every emitted cycle's edges are inside
the current visited set, and the emitted cycles are pairwise edge-disjoint. -/
def ExtractInv (acc : List (List Node) × Finset Edge) : Prop :=
  (∀ c ∈ acc.1, cycleEdges c ⊆ acc.2) ∧
  acc.1.Pairwise fun c1 c2 => Disjoint (cycleEdges c1) (cycleEdges c2)

theorem ratAbs_eq_abs (q : ℚ) : ratAbs q = |q| := by
  unfold ratAbs
  split
  · exact (abs_of_neg (by assumption)).symm
  · exact (abs_of_nonneg (by linarith [not_lt.mp (by assumption)])).symm

example : lineIntersection (1/10) ((0,0),(1,1)) ((0,1),(1,0)) = some (1/2, 1/2) := by
  with_unfolding_all decide
example : lineIntersection (1/10) ((0,0),(1,0)) ((0,1),(1,1)) = none := by
  with_unfolding_all decide

theorem ratAbs_nonneg (q : ℚ) : 0 ≤ ratAbs q := by
  rw [ratAbs_eq_abs]; exact abs_nonneg q

theorem ratAbs_neg (q : ℚ) : ratAbs (-q) = ratAbs q := by
  rw [ratAbs_eq_abs, ratAbs_eq_abs, abs_neg]

theorem interDenom_swap (s1 s2 : Seg) : interDenom s2 s1 = -interDenom s1 s2 := by
  unfold interDenom; ring

/-- Uniqueness of the crossing parameters: whenever the two parametric points
coincide and the denominator is nonzero, the parameters are exactly the
closed-form quotients computed by the source. -/
theorem interParam_unique (x1 y1 x2 y2 x3 y3 x4 y4 t u : ℚ)
    (hd : (x1 - x2) * (y3 - y4) - (y1 - y2) * (x3 - x4) ≠ 0)
    (hx : x1 + t * (x2 - x1) = x3 + u * (x4 - x3))
    (hy : y1 + t * (y2 - y1) = y3 + u * (y4 - y3)) :
    t = ((x1 - x3) * (y3 - y4) - (y1 - y3) * (x3 - x4)) /
        ((x1 - x2) * (y3 - y4) - (y1 - y2) * (x3 - x4)) ∧
    u = -((x1 - x2) * (y1 - y3) - (y1 - y2) * (x1 - x3)) /
        ((x1 - x2) * (y3 - y4) - (y1 - y2) * (x3 - x4)) := by
  constructor
  · rw [eq_div_iff hd]
    linear_combination (y4 - y3) * hx - (x4 - x3) * hy
  · rw [neg_div, eq_comm, neg_eq_iff_eq_neg, eq_comm, eq_div_iff hd]
    linear_combination (x2 - x1) * hy - (y2 - y1) * hx

/-- The point returned by the intersector also lies at the closed-form
parameter along the second segment: the two parametric expressions agree. -/
theorem interPoint_on_second (x1 y1 x2 y2 x3 y3 x4 y4 : ℚ)
    (hd : (x1 - x2) * (y3 - y4) - (y1 - y2) * (x3 - x4) ≠ 0) :
    x1 + (((x1 - x3) * (y3 - y4) - (y1 - y3) * (x3 - x4)) /
        ((x1 - x2) * (y3 - y4) - (y1 - y2) * (x3 - x4))) * (x2 - x1) =
      x3 + (-((x1 - x2) * (y1 - y3) - (y1 - y2) * (x1 - x3)) /
        ((x1 - x2) * (y3 - y4) - (y1 - y2) * (x3 - x4))) * (x4 - x3) ∧
    y1 + (((x1 - x3) * (y3 - y4) - (y1 - y3) * (x3 - x4)) /
        ((x1 - x2) * (y3 - y4) - (y1 - y2) * (x3 - x4))) * (y2 - y1) =
      y3 + (-((x1 - x2) * (y1 - y3) - (y1 - y2) * (x1 - x3)) /
        ((x1 - x2) * (y3 - y4) - (y1 - y2) * (x3 - x4))) * (y4 - y3) := by
  constructor <;> (field_simp; ring)

/-- Claim C3: the intersector reports nothing when the absolute denominator is
below the tolerance; otherwise it returns a point exactly when both crossing
parameters lie in the unit interval, and the returned point is the analytic
parametric solution on both segments. -/
theorem lineIntersection_spec (eps : ℚ) (s1 s2 : Seg) (heps : 0 < eps) :
    (ratAbs (interDenom s1 s2) < eps → lineIntersection eps s1 s2 = none) ∧
    (eps ≤ ratAbs (interDenom s1 s2) → ∀ p : Point,
      (lineIntersection eps s1 s2 = some p ↔
        ∃ t u : ℚ, 0 ≤ t ∧ t ≤ 1 ∧ 0 ≤ u ∧ u ≤ 1 ∧
          p = segParam s1 t ∧ p = segParam s2 u)) := by
  obtain ⟨⟨x1, y1⟩, ⟨x2, y2⟩⟩ := s1
  obtain ⟨⟨x3, y3⟩, ⟨x4, y4⟩⟩ := s2
  constructor
  · intro h
    simp only [lineIntersection]
    rw [if_pos h]
  · intro h p
    have hd : interDenom ((x1, y1), (x2, y2)) ((x3, y3), (x4, y4)) ≠ 0 := by
      intro h0
      rw [h0] at h
      simp [ratAbs] at h
      linarith
    simp only [interDenom] at hd
    simp only [interDenom] at h
    simp only [lineIntersection, interDenom]
    rw [if_neg (not_lt.mpr h)]
    split_ifs with hcond
    · obtain ⟨ht0, ht1, hu0, hu1⟩ := hcond
      simp only [Option.some.injEq]
      constructor
      · rintro rfl
        refine ⟨_, _, ht0, ht1, hu0, hu1, rfl, ?_⟩
        obtain ⟨hax, hay⟩ := interPoint_on_second x1 y1 x2 y2 x3 y3 x4 y4 hd
        simp only [segParam]
        rw [Prod.mk.injEq]
        exact ⟨hax, hay⟩
      · rintro ⟨t, u, ht0', ht1', hu0', hu1', hp1, hp2⟩
        rw [hp1] at hp2
        simp only [segParam, Prod.mk.injEq] at hp2
        obtain ⟨htf, _⟩ := interParam_unique x1 y1 x2 y2 x3 y3 x4 y4 t u hd hp2.1 hp2.2
        rw [hp1]
        simp only [segParam, Prod.mk.injEq]
        rw [htf]
        exact ⟨rfl, rfl⟩
    · constructor
      · intro hcontra
        exact absurd hcontra (by simp)
      · rintro ⟨t, u, ht0', ht1', hu0', hu1', hp1, hp2⟩
        exfalso
        apply hcond
        rw [hp1] at hp2
        simp only [segParam, Prod.mk.injEq] at hp2
        obtain ⟨htf, huf⟩ := interParam_unique x1 y1 x2 y2 x3 y3 x4 y4 t u hd hp2.1 hp2.2
        rw [htf] at ht0' ht1'
        rw [huf] at hu0' hu1'
        exact ⟨ht0', ht1', hu0', hu1'⟩

/-- Witness for lineIntersection_spec at the crossing of the two unit-square
diagonals with the default tolerance. -/
theorem lineIntersection_spec_witness :
    lineIntersection (1/10) ((0, 0), (1, 1)) ((0, 1), (1, 0)) = some (1/2, 1/2) := by
  have h := (lineIntersection_spec (1/10) ((0, 0), (1, 1)) ((0, 1), (1, 0))
    (by norm_num)).2 (by with_unfolding_all decide) (1/2, 1/2)
  refine h.mpr ⟨1/2, 1/2, by norm_num, by norm_num, by norm_num, by norm_num, ?_, ?_⟩
  · simp only [segParam]; norm_num
  · simp only [segParam]; norm_num

theorem lineIntersection_none_of_small (eps : ℚ) (s1 s2 : Seg)
    (h : ratAbs (interDenom s1 s2) < eps) : lineIntersection eps s1 s2 = none := by
  simp only [lineIntersection]
  rw [if_pos h]

/-- Characterization of a successful intersection in terms of the existence of
crossing parameters, independent of the concrete returned point. -/
theorem lineIntersection_isSome_char (eps : ℚ) (s1 s2 : Seg)
    (h : ¬ ratAbs (interDenom s1 s2) < eps) (hd : interDenom s1 s2 ≠ 0) :
    ((lineIntersection eps s1 s2).isSome = true ↔
      ∃ t u : ℚ, 0 ≤ t ∧ t ≤ 1 ∧ 0 ≤ u ∧ u ≤ 1 ∧ segParam s1 t = segParam s2 u) := by
  obtain ⟨⟨x1, y1⟩, ⟨x2, y2⟩⟩ := s1
  obtain ⟨⟨x3, y3⟩, ⟨x4, y4⟩⟩ := s2
  simp only [interDenom] at h hd
  simp only [lineIntersection, interDenom]
  rw [if_neg h]
  split_ifs with hcond
  · simp only [Option.isSome_some, true_iff]
    obtain ⟨ht0, ht1, hu0, hu1⟩ := hcond
    refine ⟨_, _, ht0, ht1, hu0, hu1, ?_⟩
    simp only [segParam]
    rw [Prod.mk.injEq]
    exact interPoint_on_second x1 y1 x2 y2 x3 y3 x4 y4 hd
  · simp only [Option.isSome_none, Bool.false_eq_true, false_iff]
    rintro ⟨t, u, ht0, ht1, hu0, hu1, he⟩
    apply hcond
    simp only [segParam, Prod.mk.injEq] at he
    obtain ⟨htf, huf⟩ := interParam_unique x1 y1 x2 y2 x3 y3 x4 y4 t u hd he.1 he.2
    rw [htf] at ht0 ht1
    rw [huf] at hu0 hu1
    exact ⟨ht0, ht1, hu0, hu1⟩

/-- Claim C10: the intersector reports an intersection for (s1, s2) exactly
when it reports one for (s2, s1), so the deduplicated intersection set does
not depend on the order in which a pair of segments is examined. -/
theorem lineIntersection_isSome_symm (eps : ℚ) (s1 s2 : Seg) :
    (lineIntersection eps s1 s2).isSome = (lineIntersection eps s2 s1).isSome := by
  by_cases h1 : ratAbs (interDenom s1 s2) < eps
  · rw [lineIntersection_none_of_small eps s1 s2 h1,
      lineIntersection_none_of_small eps s2 s1
        (by rw [interDenom_swap, ratAbs_neg]; exact h1)]
  · have h2 : ¬ ratAbs (interDenom s2 s1) < eps := by
      rw [interDenom_swap, ratAbs_neg]; exact h1
    by_cases hd0 : interDenom s1 s2 = 0
    · have hd0' : interDenom s2 s1 = 0 := by rw [interDenom_swap, hd0, neg_zero]
      simp only [lineIntersection]
      rw [if_neg h1, if_neg h2, hd0, hd0']
      norm_num
    · have hd0' : interDenom s2 s1 ≠ 0 := by
        rw [interDenom_swap]; exact neg_ne_zero.mpr hd0
      have c1 := lineIntersection_isSome_char eps s1 s2 h1 hd0
      have c2 := lineIntersection_isSome_char eps s2 s1 h2 hd0'
      rw [Bool.eq_iff_iff, c1, c2]
      constructor
      · rintro ⟨t, u, ht0, ht1, hu0, hu1, he⟩
        exact ⟨u, t, hu0, hu1, ht0, ht1, he.symm⟩
      · rintro ⟨t, u, ht0, ht1, hu0, hu1, he⟩
        exact ⟨u, t, hu0, hu1, ht0, ht1, he.symm⟩

theorem pyRoundInt_intCast (n : ℤ) : pyRoundInt (n : ℚ) = n := by
  norm_num [pyRoundInt, Int.floor_intCast, round_intCast]

theorem pyRound_idem (prec : ℤ) (q : ℚ) : pyRound prec (pyRound prec q) = pyRound prec q := by
  unfold pyRound
  have h10 : ((10 : ℚ) ^ prec) ≠ 0 := zpow_ne_zero _ (by norm_num)
  rw [div_mul_cancel₀ _ h10, pyRoundInt_intCast]

/-- Claim C4 (counterexample): the points (1/25, 0) and (3/50, 0) are strictly
closer than the default tolerance 1/10 (squared distance 1/2500 below 1/100),
yet the graph builder's rounding maps them to the two distinct keys (0, 0) and
(1/10, 0), and a segment between them builds a graph with two distinct nodes
rather than one. -/
theorem roundPoint_close_points_counterexample :
    distSq (1/25, 0) (3/50, 0) < (1/10) ^ 2 ∧
    roundPoint 1 (1/25, 0) ≠ roundPoint 1 (3/50, 0) ∧
    (buildSegmentGraph 1 [((1/25, 0), (3/50, 0))]).length = 2 := by
  refine ⟨?_, ?_, ?_⟩ <;> with_unfolding_all decide

/-- Claim C4 (amended): the graph builder's rounding is idempotent — rounding
twice equals rounding once — so a rounded node key always re-rounds to itself
and a point always collapses with its own rounded image; but two raw points
less than the tolerance apart need not collapse to one node (see the
counterexample). -/
theorem roundPoint_idempotent (prec : ℤ) (p : Point) :
    roundPoint prec (roundPoint prec p) = roundPoint prec p := by
  simp [roundPoint, pyRound_idem]


set_option maxRecDepth 4000 in
/-- Claim C2: on the four sides of the 50 by 50 square with tolerance 1/10
(rounding digit count 1), find_polygons returns exactly one polygon, its
vertex cycle is the square's corner cycle, and its area is 2500. -/
theorem findPolygons_square_scenario :
    findPolygons (1/10) 1 squareSegs = [squareCycle] ∧ polyArea squareCycle = 2500 := by
  refine ⟨by with_unfolding_all decide, ?_⟩
  norm_num [polyArea, shoelace2, squareCycle, List.rotate, ratAbs]

/-- De-nesting only drops polygons: every survivor was a member of the input. -/
theorem mem_of_mem_removeNested {polys : List Poly} {q : Poly}
    (h : q ∈ removeNestedPolygons polys) : q ∈ polys := by
  unfold removeNestedPolygons at h
  rw [List.mem_map] at h
  obtain ⟨i, hi, rfl⟩ := h
  rw [List.mem_filter] at hi
  have hlt : i < polys.length := List.mem_range.mp hi.1
  rw [List.getD_eq_getElem polys [] hlt]
  exact List.get_mem polys _ hlt

/-- The validity check demands at least 3 ring vertices. -/
theorem isSimpleRing_three_le {ps : Poly} (h : isSimpleRing ps = true) : 3 ≤ ps.length := by
  unfold isSimpleRing at h
  simp only [Bool.and_eq_true, decide_eq_true_eq] at h
  exact h.1.1.1

/-- Claim C5: with the configured tolerance at most 1 (the default is 1/10),
every polygon surviving the validator has area strictly above the squared
tolerance, and every candidate cycle whose area is at most the tolerance is
discarded by the validator. -/
theorem validatePolygons_area_bound (eps : ℚ) (cs : List (List Point))
    (h0 : 0 ≤ eps) (h1 : eps ≤ 1) :
    (∀ p ∈ validatePolygons eps cs, eps ^ 2 < polyArea p) ∧
    (∀ c ∈ cs, polyArea c ≤ eps → c ∉ validatePolygons eps cs) := by
  constructor
  · intro p hp
    unfold validatePolygons at hp
    have hf := mem_of_mem_removeNested hp
    rw [List.mem_filter] at hf
    simp only [Bool.and_eq_true, decide_eq_true_eq] at hf
    have harea : eps < polyArea p := hf.2.1.2
    nlinarith
  · intro c _ harea hmem
    unfold validatePolygons at hmem
    have hf := mem_of_mem_removeNested hmem
    rw [List.mem_filter] at hf
    simp only [Bool.and_eq_true, decide_eq_true_eq] at hf
    have : eps < polyArea c := hf.2.1.2
    linarith

/-- Witness for validatePolygons_area_bound: a 9 by 9 square survives with
area above 1/100 while a thin triangle of area 1/40 is discarded. -/
theorem validatePolygons_area_bound_witness :
    ((1/10 : ℚ)) ^ 2 < polyArea [(0, 0), (9, 0), (9, 9), (0, 9)] ∧
    [(0, 0), (1, 0), (0, 1/20)] ∉ validatePolygons (1/10)
      [[(0, 0), (9, 0), (9, 9), (0, 9)], [(0, 0), (1, 0), (0, 1/20)]] := by
  have h := validatePolygons_area_bound (1/10)
    [[(0, 0), (9, 0), (9, 9), (0, 9)], [(0, 0), (1, 0), (0, 1/20)]]
    (by norm_num) (by norm_num)
  exact ⟨h.1 _ (by with_unfolding_all decide),
    h.2 _ (by with_unfolding_all decide) (by with_unfolding_all decide)⟩

/-- Claim C8: every polygon returned by find_polygons has between 3 and 6
vertices inclusive, for every input segment list, tolerance and rounding
digit count. -/
theorem findPolygons_vertex_count_bounds (eps : ℚ) (prec : ℤ) (segs : List Seg) :
    ∀ p ∈ findPolygons eps prec segs, 3 ≤ p.length ∧ p.length ≤ 6 := by
  intro p hp
  simp only [findPolygons, findPolygonsProc, validatePolygons] at hp
  have hf := mem_of_mem_removeNested hp
  rw [List.mem_filter] at hf
  have hpred := hf.2
  simp only [Bool.and_eq_true, decide_eq_true_eq] at hpred
  exact ⟨isSimpleRing_three_le hpred.1.1, hpred.2⟩

set_option maxRecDepth 4000 in
/-- Witness for findPolygons_vertex_count_bounds: the polygon found for the
square input has 4 vertices. -/
theorem findPolygons_vertex_count_bounds_witness :
    3 ≤ squareCycle.length ∧ squareCycle.length ≤ 6 :=
  findPolygons_vertex_count_bounds (1/10) 1 squareSegs squareCycle
    (by with_unfolding_all decide)


/-- Claim C7: whenever some other polygon of the validated list contains a
polygon P, the de-nesting step drops P; in particular on one square strictly
inside another only the outer square remains. -/
theorem removeNested_drops_nested :
    (∀ (polys : List Poly) (P : Poly), P ∈ polys →
      (∃ Q ∈ polys, Q ≠ P ∧ polyContains Q P = true) →
      P ∉ removeNestedPolygons polys) ∧
    removeNestedPolygons [outerSquare, innerSquare] = [outerSquare] := by
  constructor
  · rintro polys P hP ⟨Q, hQ, hne, hcont⟩ hmem
    unfold removeNestedPolygons at hmem
    rw [List.mem_map] at hmem
    obtain ⟨i, hi, hieq⟩ := hmem
    rw [List.mem_filter] at hi
    have hilt : i < polys.length := List.mem_range.mp hi.1
    obtain ⟨⟨j, hjlt⟩, hjeq⟩ := List.mem_iff_get.mp hQ
    have hQj : polys.getD j [] = Q := by rw [List.getD_eq_getElem polys [] hjlt]; exact hjeq
    have hPi : polys.getD i [] = P := hieq
    have hij : i ≠ j := by
      intro hcontra
      apply hne
      rw [← hQj, ← hPi, hcontra]
    have hkeep := hi.2
    rw [Bool.not_eq_eq_eq_not, Bool.not_true, List.any_eq_false] at hkeep
    have := hkeep j (List.mem_range.mpr hjlt)
    rw [Bool.and_eq_true, decide_eq_true_eq] at this
    exact this ⟨hij, by rw [hQj, hPi]; exact hcont⟩
  · with_unfolding_all decide

/-- Witness for removeNested_drops_nested: the inner square is dropped. -/
theorem removeNested_drops_nested_witness :
    innerSquare ∉ removeNestedPolygons [outerSquare, innerSquare] :=
  removeNested_drops_nested.1 [outerSquare, innerSquare] innerSquare
    (by with_unfolding_all decide)
    ⟨outerSquare, by with_unfolding_all decide, by with_unfolding_all decide,
      by with_unfolding_all decide⟩

/-- A failed walk never touches the global visited-edge set: the loop only
adds edges in its success branch. -/
theorem walkLoop_none_eq (g : Graph) (s : Node) (V : Finset Edge) :
    ∀ (fuel : ℕ) (path : List Node) (vn : Finset Node) (cur : Node),
      (walkLoop g s V fuel path vn cur).1 = none →
      (walkLoop g s V fuel path vn cur).2 = V := by
  intro fuel
  induction fuel with
  | zero => intro path vn cur _; rfl
  | succ n ih =>
    intro path vn cur h
    simp only [walkLoop] at h ⊢
    split_ifs at h ⊢ with h1 h2 h3
    · rfl
    · exact ih _ _ _ h
    · exact ih _ _ _ h

/-- Claim C6: when the walk started from the edge (a, b) dead-ends and returns
no face, the global visited-edge set afterwards is exactly what it was before
the walk started. -/
theorem findCycleFromEdge_fail_preserves_visited (g : Graph) (a b : Node) (V : Finset Edge)
    (h : (findCycleFromEdge g a b V).1 = none) :
    (findCycleFromEdge g a b V).2 = V := by
  unfold findCycleFromEdge at h ⊢
  exact walkLoop_none_eq g a V _ _ _ _ h


/-- Witness for findCycleFromEdge_fail_preserves_visited: walking the path
graph from its first edge finds no cycle and leaves the empty visited set
empty. -/
theorem findCycleFromEdge_fail_preserves_visited_witness :
    (findCycleFromEdge pathGraph (0, 0) (1, 0) (∅ : Finset Edge)).2 = ∅ :=
  findCycleFromEdge_fail_preserves_visited pathGraph (0, 0) (1, 0) ∅
    (by with_unfolding_all decide)

/-- Appending one node to a path adds exactly the edge from the old last node
to the appended node. -/
theorem consecEdges_concat (nxt : Node) (path : List Node) :
    ∀ cur, path.getLast? = some cur →
      consecEdges (path ++ [nxt]) = insert (edgeOf cur nxt) (consecEdges path) := by
  induction path with
  | nil => intro cur h; simp at h
  | cons a rest ih =>
    intro cur h
    cases rest with
    | nil =>
      simp only [List.getLast?_singleton, Option.some.injEq] at h
      subst h
      simp [consecEdges]
    | cons b rest2 =>
      rw [List.getLast?_cons_cons] at h
      have ihh := ih cur h
      simp only [List.cons_append] at ihh ⊢
      simp only [consecEdges]
      rw [ihh]
      exact Finset.Insert.comm _ _ _

/-- The default head of a nonempty list is a member of it. -/
theorem headI_mem_self {l : List Node} (h : l ≠ []) : l.headI ∈ l := by
  cases l with
  | nil => exact absurd rfl h
  | cons a t => simp

/-- The rightmost-turn selection always returns one of the candidates. -/
theorem chooseRightmost_mem (cur prev : Node) (nbrs : List Node) (h : nbrs ≠ []) :
    chooseRightmost cur prev nbrs ∈ nbrs := by
  unfold chooseRightmost
  have gen : ∀ (l : List Node) (init : Node),
      l.foldl (fun best n =>
        if angLt (vsub cur prev) (vsub n cur) (vsub best cur) then n else best) init = init ∨
      l.foldl (fun best n =>
        if angLt (vsub cur prev) (vsub n cur) (vsub best cur) then n else best) init ∈ l := by
    intro l
    induction l with
    | nil => intro init; left; rfl
    | cons a rest ihl =>
      intro init
      simp only [List.foldl_cons]
      split_ifs with hf
      · rcases ihl a with h1 | h1
        · right; rw [h1]; exact List.mem_cons_self a rest
        · right; exact List.mem_cons_of_mem _ h1
      · rcases ihl init with h1 | h1
        · left; exact h1
        · right; exact List.mem_cons_of_mem _ h1
  rcases gen nbrs nbrs.headI with h1 | h1
  · rw [h1]; exact headI_mem_self h
  · exact h1

/-- When a walk succeeds, the edges of the returned cycle were all unvisited at
the start of the walk, and the returned visited set is exactly the old one
plus the cycle's edges. -/
theorem walkLoop_some_eq (g : Graph) (s : Node) (V : Finset Edge) :
    ∀ (fuel : ℕ) (path : List Node) (vn : Finset Node) (cur : Node) (p : List Node),
      (walkLoop g s V fuel path vn cur).1 = some p →
      path.head? = some s → path.getLast? = some cur →
      Disjoint (consecEdges path) V →
      Disjoint (cycleEdges p) V ∧
        (walkLoop g s V fuel path vn cur).2 = V ∪ cycleEdges p := by
  intro fuel
  induction fuel with
  | zero => intro path vn cur p h _ _ _; simp [walkLoop] at h
  | succ n ih =>
    intro path vn cur p h hhead hlast hdisj
    simp only [walkLoop] at h ⊢
    split_ifs at h ⊢ with h1 h2 h3
    · -- success branch: the returned cycle is the current path
      simp only [Option.some.injEq] at h
      subst h
      have hcyc : cycleEdges path = insert (edgeOf cur s) (consecEdges path) := by
        unfold cycleEdges
        rw [hhead, hlast]
      constructor
      · rw [hcyc]
        exact Finset.disjoint_insert_left.mpr ⟨h1.2.1, hdisj⟩
      · rw [hcyc, Finset.union_insert, Finset.union_insert, Finset.union_comm]
    · -- single eligible neighbor
      have hne : (List.filter (fun m =>
          decide (edgeOf cur m ∉ V) && decide (m ∉ vn)) (neighborsOf g cur)) ≠ [] := by
        intro he; exact h2 (by rw [he]; rfl)
      have hmemf := headI_mem_self hne
      have hmem := List.mem_filter.mp hmemf
      have hnotV : edgeOf cur (List.filter (fun m =>
          decide (edgeOf cur m ∉ V) && decide (m ∉ vn)) (neighborsOf g cur)).headI ∉ V := by
        have := hmem.2
        rw [Bool.and_eq_true, decide_eq_true_eq, decide_eq_true_eq] at this
        exact this.1
      refine ih _ _ _ _ h ?_ ?_ ?_
      · cases path with
        | nil => simp at hlast
        | cons a t => simpa using hhead
      · rw [List.getLast?_concat]
      · rw [consecEdges_concat _ path cur hlast]
        exact Finset.disjoint_insert_left.mpr ⟨hnotV, hdisj⟩
    · -- rightmost-turn neighbor
      have hne : (List.filter (fun m =>
          decide (edgeOf cur m ∉ V) && decide (m ∉ vn)) (neighborsOf g cur)) ≠ [] := by
        intro he; exact h2 (by rw [he]; rfl)
      have hmemf := chooseRightmost_mem cur (path.getD (path.length - 2) cur) _ hne
      have hmem := List.mem_filter.mp hmemf
      have hnotV : edgeOf cur (chooseRightmost cur (path.getD (path.length - 2) cur)
          (List.filter (fun m =>
            decide (edgeOf cur m ∉ V) && decide (m ∉ vn)) (neighborsOf g cur))) ∉ V := by
        have := hmem.2
        rw [Bool.and_eq_true, decide_eq_true_eq, decide_eq_true_eq] at this
        exact this.1
      refine ih _ _ _ _ h ?_ ?_ ?_
      · cases path with
        | nil => simp at hlast
        | cons a t => simpa using hhead
      · rw [List.getLast?_concat]
      · rw [consecEdges_concat _ path cur hlast]
        exact Finset.disjoint_insert_left.mpr ⟨hnotV, hdisj⟩


/-- One extraction attempt preserves the invariant. -/
theorem tryEdge_inv (g : Graph) (u v : Node) (acc : List (List Node) × Finset Edge)
    (hinv : ExtractInv acc) : ExtractInv (tryEdge g u v acc) := by
  obtain ⟨hsub, hpw⟩ := hinv
  unfold tryEdge
  split_ifs with h1
  · exact ⟨hsub, hpw⟩
  · rcases hw : findCycleFromEdge g u v acc.2 with ⟨oc, vis⟩
    unfold findCycleFromEdge at hw
    rcases oc with _ | c
    · have hV : vis = acc.2 := by
        have h2 := walkLoop_none_eq g u acc.2 (walkFuel g) [u, v] {u, v} v (by rw [hw])
        rw [hw] at h2
        exact h2
      subst hV
      exact ⟨hsub, hpw⟩
    · have hpre1 : ([u, v] : List Node).head? = some u := rfl
      have hpre2 : ([u, v] : List Node).getLast? = some v := rfl
      have hpre3 : Disjoint (consecEdges [u, v]) acc.2 := by
        have : consecEdges [u, v] = {edgeOf u v} := by simp [consecEdges]
        rw [this]
        exact Finset.disjoint_singleton_left.mpr h1
      have hsome := walkLoop_some_eq g u acc.2 (walkFuel g) [u, v] {u, v} v c
        (by rw [hw]) hpre1 hpre2 hpre3
      rw [hw] at hsome
      obtain ⟨hdisjc, hVeq⟩ := hsome
      have hVeq2 : vis = acc.2 ∪ cycleEdges c := hVeq
      have hsub2 : acc.2 ⊆ vis := by rw [hVeq2]; exact Finset.subset_union_left
      dsimp only
      split_ifs with hlen
      · constructor
        · intro c2 hc2
          rw [List.mem_append] at hc2
          rcases hc2 with hc2 | hc2
          · exact (hsub c2 hc2).trans hsub2
          · rw [List.mem_singleton] at hc2
            subst hc2
            rw [hVeq2]
            exact Finset.subset_union_right
        · rw [List.pairwise_append]
          refine ⟨hpw, List.pairwise_singleton _ _, ?_⟩
          intro a ha b hb
          rw [List.mem_singleton] at hb
          subst hb
          exact Finset.disjoint_of_subset_left (hsub a ha) hdisjc.symm
      · exact ⟨fun c2 hc2 => (hsub c2 hc2).trans hsub2, hpw⟩

/-- The inner neighbor loop preserves the invariant. -/
theorem visitNbrs_inv (g : Graph) (u : Node) :
    ∀ (vs : List Node) (acc : List (List Node) × Finset Edge),
      ExtractInv acc → ExtractInv (visitNbrs g u vs acc) := by
  intro vs
  induction vs with
  | nil => intro acc h; exact h
  | cons v rest ih =>
    intro acc h
    exact ih _ (tryEdge_inv g u v acc h)

/-- The outer entry loop preserves the invariant. -/
theorem visitEntries_inv (g : Graph) :
    ∀ (es : List (Node × List Node)) (acc : List (List Node) × Finset Edge),
      ExtractInv acc → ExtractInv (visitEntries g es acc) := by
  intro es
  induction es with
  | nil => intro acc h; exact h
  | cons e rest ih =>
    intro acc h
    exact ih _ (visitNbrs_inv g e.1 e.2 acc h)

/-- In a pairwise edge-disjoint cycle list, any fixed edge occurs in at most
one cycle. -/
theorem length_filter_le_one_of_pairwise (e : Edge) :
    ∀ (l : List (List Node)),
      (l.Pairwise fun c1 c2 => Disjoint (cycleEdges c1) (cycleEdges c2)) →
      (l.filter fun c => decide (e ∈ cycleEdges c)).length ≤ 1 := by
  intro l
  induction l with
  | nil => intro _; simp
  | cons a rest ih =>
    intro h
    rw [List.pairwise_cons] at h
    by_cases he : e ∈ cycleEdges a
    · have hrest : (rest.filter fun c => decide (e ∈ cycleEdges c)) = [] := by
        rw [List.filter_eq_nil_iff]
        intro c hc
        rw [decide_eq_true_eq]
        intro hec
        exact (Finset.disjoint_left.mp (h.1 c hc)) he hec
      rw [List.filter_cons_of_pos (by rw [decide_eq_true_eq]; exact he), hrest]
      simp
    · rw [List.filter_cons_of_neg (by rw [decide_eq_true_eq]; exact he)]
      exact ih h.2

/-- Claim C1: the extraction pass consumes each undirected edge at most once:
the emitted cycles have pairwise disjoint undirected edge sets, so any fixed
undirected edge appears in at most one emitted cycle. -/
theorem findCyclesInGraph_edge_at_most_once (g : Graph) :
    ((findCyclesInGraph g).Pairwise fun c1 c2 =>
      Disjoint (cycleEdges c1) (cycleEdges c2)) ∧
    ∀ e : Edge, ((findCyclesInGraph g).filter fun c => decide (e ∈ cycleEdges c)).length ≤ 1 := by
  have h := visitEntries_inv g g ([], ∅) ⟨by simp, List.Pairwise.nil⟩
  refine ⟨h.2, fun e => length_filter_le_one_of_pairwise e _ h.2⟩

/-- Claim C9: find_polygons is deterministic. Running the method a second time
on the same processor instance (whose segment and intersection state the first
run mutated) with the identical input yields the identical polygon list — in
particular an identical multiset — because find_polygons resets
self.segments and self.intersections from its argument before computing and
the configured tolerance is never changed. -/
theorem findPolygonsProc_deterministic (st : ProcState) (segs : List Seg) :
    (findPolygonsProc (findPolygonsProc st segs).1 segs).2 =
      (findPolygonsProc st segs).2 ∧
    ∀ (ints : List Point) (prev : List Seg),
      (findPolygonsProc ⟨st.tolerance, st.precision, ints, prev⟩ segs).2 =
        (findPolygonsProc st segs).2 :=
  ⟨rfl, fun _ _ => rfl⟩

end GeometryProcessor
